import Mathlib

/-!
Verification development for the TDR (timeout detection and recovery) watchdog of
the amdxdna driver, embedded from src/src/driver/amdxdna/amdxdna_tdr.c.

The per-context counters `submitted`, `completed` and `tdr_last_completed` are
u64 values in the source; the scan only compares them for equality and never
performs arithmetic on them, so `Nat` is a faithful representation. The
diagnostic counter `tdr_counter` is likewise only incremented once per recovery
and is modelled as `Nat`.

The registry walked by `amdxdna_tdr_work` is the list of clients of the device,
each holding its hardware contexts in idr iteration order; it is modelled as a
`List (List Hwctx)`. The early exits of the C code (the `break` out of the
context loop when a context progressed, followed by the `if (active) break` out
of the client loop) are reproduced by the recursion structure of `scanCtxs` and
`scanClients`.
-/

/-- A hardware context, with the three counters read by the watchdog. -/
structure Hwctx where
  submitted : Nat
  completed : Nat
  tdr_last_completed : Nat
deriving DecidableEq

/-- Result of one traversal (of the contexts of one client, or of the whole
client list): the possibly updated structure, the running context count
(`ctx_cnt` in the C code), the idle count (`stop_cnt`), and the `active` flag. -/
structure ScanRes (α : Type) where
  ctxs : α
  ctx_cnt : Nat
  stop_cnt : Nat
  active : Bool
deriving DecidableEq

/-- Inner loop of `amdxdna_tdr_work` over the contexts of one client:
count each visited context; an idle context (`submitted == completed`) bumps
`stop_cnt`; the first busy context whose `completed` differs from its
`tdr_last_completed` snapshot gets its snapshot refreshed, sets `active`
and breaks out of the loop. -/
def scanCtxs : List Hwctx → ScanRes (List Hwctx)
  | [] => ⟨[], 0, 0, false⟩
  | c :: rest =>
    if c.submitted = c.completed then
      let r := scanCtxs rest
      ⟨c :: r.ctxs, r.ctx_cnt + 1, r.stop_cnt + 1, r.active⟩
    else if c.tdr_last_completed ≠ c.completed then
      ⟨{ c with tdr_last_completed := c.completed } :: rest, 1, 0, true⟩
    else
      let r := scanCtxs rest
      ⟨c :: r.ctxs, r.ctx_cnt + 1, r.stop_cnt, r.active⟩

/-- Outer loop of `amdxdna_tdr_work` over the client list, accumulating the
counters and breaking out of the client loop once `active` is set. -/
def scanClients : List (List Hwctx) → ScanRes (List (List Hwctx))
  | [] => ⟨[], 0, 0, false⟩
  | cl :: rest =>
    let r := scanCtxs cl
    if r.active then
      ⟨r.ctxs :: rest, r.ctx_cnt, r.stop_cnt, true⟩
    else
      let r2 := scanClients rest
      ⟨r.ctxs :: r2.ctxs, r.ctx_cnt + r2.ctx_cnt, r.stop_cnt + r2.stop_cnt, r2.active⟩

/-- State read and written by one scan cycle: the registry and the diagnostic
recovery counter `tdr_counter`. -/
structure TdrState where
  clients : List (List Hwctx)
  tdr_counter : Nat
deriving DecidableEq

/-- One run of `amdxdna_tdr_work`: scan the registry, then recover the device
exactly when `ctx_cnt != stop_cnt && !active`. Returns the new state and
whether the recovery operation was invoked. -/
def amdxdna_tdr_work (s : TdrState) : TdrState × Bool :=
  let r := scanClients s.clients
  if r.ctx_cnt ≠ r.stop_cnt ∧ r.active = false then
    (⟨r.ctxs, s.tdr_counter + 1⟩, true)
  else
    (⟨r.ctxs, s.tdr_counter⟩, false)

/-- A context with outstanding work whose completed counter moved since the
snapshot taken at the previous scan: the scan stops at such a context. -/
def isProg (c : Hwctx) : Prop :=
  c.submitted ≠ c.completed ∧ c.tdr_last_completed ≠ c.completed

instance (c : Hwctx) : Decidable (isProg c) := by
  unfold isProg; infer_instance

/-- Specification-level description of the frame effect of one scan over the
flattened context list: the first progressing context has its
`tdr_last_completed` snapshot refreshed, every other context is untouched. -/
def updFirst : List Hwctx → List Hwctx
  | [] => []
  | c :: rest =>
    if isProg c then
      { c with tdr_last_completed := c.completed } :: rest
    else
      c :: updFirst rest

/-- A context is idle when it has no outstanding work. -/
def isIdleB (c : Hwctx) : Bool :=
  c.submitted == c.completed

theorem not_isProg_of_idle (c : Hwctx) (h : c.submitted = c.completed) : ¬isProg c :=
  fun hp => hp.1 h

theorem not_isProg_of_frozen (c : Hwctx) (h : c.tdr_last_completed = c.completed) :
    ¬isProg c :=
  fun hp => hp.2 h

theorem scanCtxs_cons_idle (c : Hwctx) (rest : List Hwctx)
    (h : c.submitted = c.completed) :
    scanCtxs (c :: rest) = ⟨c :: (scanCtxs rest).ctxs, (scanCtxs rest).ctx_cnt + 1,
      (scanCtxs rest).stop_cnt + 1, (scanCtxs rest).active⟩ := by
  simp [scanCtxs, h]

theorem scanCtxs_cons_prog (c : Hwctx) (rest : List Hwctx) (h : isProg c) :
    scanCtxs (c :: rest) =
      ⟨{ c with tdr_last_completed := c.completed } :: rest, 1, 0, true⟩ := by
  simp [scanCtxs, h.1, h.2]

theorem scanCtxs_cons_frozen (c : Hwctx) (rest : List Hwctx)
    (h1 : c.submitted ≠ c.completed) (h2 : c.tdr_last_completed = c.completed) :
    scanCtxs (c :: rest) = ⟨c :: (scanCtxs rest).ctxs, (scanCtxs rest).ctx_cnt + 1,
      (scanCtxs rest).stop_cnt, (scanCtxs rest).active⟩ := by
  simp [scanCtxs, h1, h2]

theorem updFirst_cons_prog (c : Hwctx) (rest : List Hwctx) (h : isProg c) :
    updFirst (c :: rest) = { c with tdr_last_completed := c.completed } :: rest := by
  simp [updFirst, h]

theorem updFirst_cons_not_prog (c : Hwctx) (rest : List Hwctx) (h : ¬isProg c) :
    updFirst (c :: rest) = c :: updFirst rest := by
  simp [updFirst, h]

theorem scanCtxs_active_iff (l : List Hwctx) :
    (scanCtxs l).active = true ↔ ∃ c ∈ l, isProg c := by
  induction l with
  | nil => simp [scanCtxs]
  | cons c rest ih =>
    by_cases hp : isProg c
    · simp [scanCtxs_cons_prog c rest hp, hp]
    · by_cases hidle : c.submitted = c.completed
      · simp [scanCtxs_cons_idle c rest hidle, ih, hp]
      · have hfr : c.tdr_last_completed = c.completed := by
          by_contra hne
          exact hp ⟨hidle, hne⟩
        simp [scanCtxs_cons_frozen c rest hidle hfr, ih, hp]

theorem scanCtxs_not_active (l : List Hwctx) (h : (scanCtxs l).active = false) :
    (scanCtxs l).ctxs = l ∧ (scanCtxs l).ctx_cnt = l.length ∧
      (scanCtxs l).stop_cnt = l.countP isIdleB := by
  induction l with
  | nil => simp [scanCtxs]
  | cons c rest ih =>
    by_cases hp : isProg c
    · rw [scanCtxs_cons_prog c rest hp] at h
      simp at h
    · by_cases hidle : c.submitted = c.completed
      · rw [scanCtxs_cons_idle c rest hidle] at h ⊢
        obtain ⟨e1, e2, e3⟩ := ih h
        simp [e1, e2, e3, List.countP_cons, isIdleB, hidle]
      · have hfr : c.tdr_last_completed = c.completed := by
          by_contra hne
          exact hp ⟨hidle, hne⟩
        rw [scanCtxs_cons_frozen c rest hidle hfr] at h ⊢
        obtain ⟨e1, e2, e3⟩ := ih h
        simp [e1, e2, e3, List.countP_cons, isIdleB, hidle]

theorem scanCtxs_ctxs (l : List Hwctx) : (scanCtxs l).ctxs = updFirst l := by
  induction l with
  | nil => simp [scanCtxs, updFirst]
  | cons c rest ih =>
    by_cases hp : isProg c
    · rw [scanCtxs_cons_prog c rest hp, updFirst_cons_prog c rest hp]
    · by_cases hidle : c.submitted = c.completed
      · rw [scanCtxs_cons_idle c rest hidle, updFirst_cons_not_prog c rest hp]
        simp [ih]
      · have hfr : c.tdr_last_completed = c.completed := by
          by_contra hne
          exact hp ⟨hidle, hne⟩
        rw [scanCtxs_cons_frozen c rest hidle hfr, updFirst_cons_not_prog c rest hp]
        simp [ih]

theorem updFirst_length (l : List Hwctx) : (updFirst l).length = l.length := by
  induction l with
  | nil => rfl
  | cons c rest ih =>
    by_cases hp : isProg c
    · rw [updFirst_cons_prog c rest hp]
      simp
    · rw [updFirst_cons_not_prog c rest hp]
      simp [ih]

theorem updFirst_eq_self (l : List Hwctx) (h : ∀ c ∈ l, ¬isProg c) :
    updFirst l = l := by
  induction l with
  | nil => rfl
  | cons c rest ih =>
    rw [updFirst_cons_not_prog c rest (h c (by simp))]
    rw [ih fun x hx => h x (by simp [hx])]

theorem updFirst_append_left (a b : List Hwctx) (h : ∃ c ∈ a, isProg c) :
    updFirst (a ++ b) = updFirst a ++ b := by
  induction a with
  | nil => simp at h
  | cons c rest ih =>
    by_cases hp : isProg c
    · rw [List.cons_append, updFirst_cons_prog c (rest ++ b) hp,
        updFirst_cons_prog c rest hp, List.cons_append]
    · obtain ⟨x, hx, hpx⟩ := h
      rcases List.mem_cons.mp hx with rfl | hx2
      · exact absurd hpx hp
      · rw [List.cons_append, updFirst_cons_not_prog c (rest ++ b) hp,
          updFirst_cons_not_prog c rest hp, List.cons_append, ih ⟨x, hx2, hpx⟩]

theorem updFirst_append_right (a b : List Hwctx) (h : ∀ c ∈ a, ¬isProg c) :
    updFirst (a ++ b) = a ++ updFirst b := by
  induction a with
  | nil => simp
  | cons c rest ih =>
    rw [List.cons_append, updFirst_cons_not_prog c (rest ++ b) (h c (by simp)),
      ih fun x hx => h x (by simp [hx]), List.cons_append]

theorem scanClients_cons_active (cl : List Hwctx) (rest : List (List Hwctx))
    (h : (scanCtxs cl).active = true) :
    scanClients (cl :: rest) =
      ⟨(scanCtxs cl).ctxs :: rest, (scanCtxs cl).ctx_cnt, (scanCtxs cl).stop_cnt,
        true⟩ := by
  simp [scanClients, h]

theorem scanClients_cons_not_active (cl : List Hwctx) (rest : List (List Hwctx))
    (h : (scanCtxs cl).active = false) :
    scanClients (cl :: rest) =
      ⟨(scanCtxs cl).ctxs :: (scanClients rest).ctxs,
        (scanCtxs cl).ctx_cnt + (scanClients rest).ctx_cnt,
        (scanCtxs cl).stop_cnt + (scanClients rest).stop_cnt,
        (scanClients rest).active⟩ := by
  simp [scanClients, h]

theorem scanClients_active_iff (L : List (List Hwctx)) :
    (scanClients L).active = true ↔ ∃ c ∈ L.flatten, isProg c := by
  induction L with
  | nil => simp [scanClients]
  | cons cl rest ih =>
    by_cases h1 : (scanCtxs cl).active = true
    · obtain ⟨c, hc, hpc⟩ := (scanCtxs_active_iff cl).mp h1
      rw [scanClients_cons_active cl rest h1]
      constructor
      · intro _
        exact ⟨c, by simp [List.flatten_cons, hc], hpc⟩
      · intro _
        rfl
    · have h1f : (scanCtxs cl).active = false := by
        cases hb : (scanCtxs cl).active
        · rfl
        · exact absurd hb h1
      have hno : ∀ c ∈ cl, ¬isProg c := fun c hc hpc =>
        h1 ((scanCtxs_active_iff cl).mpr ⟨c, hc, hpc⟩)
      rw [scanClients_cons_not_active cl rest h1f]
      simp only [List.flatten_cons, List.mem_append]
      constructor
      · intro ha
        obtain ⟨c, hc, hpc⟩ := ih.mp ha
        exact ⟨c, Or.inr hc, hpc⟩
      · intro ⟨c, hc, hpc⟩
        rcases hc with hin | hin
        · exact absurd hpc (hno c hin)
        · exact ih.mpr ⟨c, hin, hpc⟩

theorem scanClients_not_active (L : List (List Hwctx))
    (h : (scanClients L).active = false) :
    (scanClients L).ctxs = L ∧ (scanClients L).ctx_cnt = L.flatten.length ∧
      (scanClients L).stop_cnt = L.flatten.countP isIdleB := by
  induction L with
  | nil => simp [scanClients]
  | cons cl rest ih =>
    by_cases h1 : (scanCtxs cl).active = true
    · rw [scanClients_cons_active cl rest h1] at h
      simp at h
    · have h1f : (scanCtxs cl).active = false := by
        cases hb : (scanCtxs cl).active
        · rfl
        · exact absurd hb h1
      rw [scanClients_cons_not_active cl rest h1f] at h ⊢
      obtain ⟨e1, e2, e3⟩ := scanCtxs_not_active cl h1f
      obtain ⟨f1, f2, f3⟩ := ih h
      simp [e1, e2, e3, f1, f2, f3, List.flatten_cons, List.countP_append]

theorem scanClients_flatten (L : List (List Hwctx)) :
    (scanClients L).ctxs.flatten = updFirst L.flatten := by
  induction L with
  | nil => simp [scanClients, updFirst]
  | cons cl rest ih =>
    by_cases h1 : (scanCtxs cl).active = true
    · rw [scanClients_cons_active cl rest h1]
      simp only [List.flatten_cons, scanCtxs_ctxs]
      exact (updFirst_append_left cl rest.flatten ((scanCtxs_active_iff cl).mp h1)).symm
    · have h1f : (scanCtxs cl).active = false := by
        cases hb : (scanCtxs cl).active
        · rfl
        · exact absurd hb h1
      have hno : ∀ c ∈ cl, ¬isProg c := fun c hc hpc =>
        h1 ((scanCtxs_active_iff cl).mpr ⟨c, hc, hpc⟩)
      rw [scanClients_cons_not_active cl rest h1f]
      simp only [List.flatten_cons, scanCtxs_ctxs, updFirst_eq_self cl hno, ih]
      exact (updFirst_append_right cl rest.flatten hno).symm

theorem bool_eq_false {b : Bool} (h : ¬b = true) : b = false := by
  cases b
  · rfl
  · exact absurd rfl h

theorem scanClients_map_length (L : List (List Hwctx)) :
    (scanClients L).ctxs.map List.length = L.map List.length := by
  induction L with
  | nil => rfl
  | cons cl rest ih =>
    by_cases h1 : (scanCtxs cl).active = true
    · rw [scanClients_cons_active cl rest h1]
      simp [scanCtxs_ctxs, updFirst_length]
    · rw [scanClients_cons_not_active cl rest (bool_eq_false h1)]
      simp [scanCtxs_ctxs, updFirst_length, ih]

theorem tdr_work_invoked_cond (s : TdrState) :
    (amdxdna_tdr_work s).2 = true ↔
      ((scanClients s.clients).ctx_cnt ≠ (scanClients s.clients).stop_cnt ∧
        (scanClients s.clients).active = false) := by
  simp only [amdxdna_tdr_work]
  split_ifs with h
  · simpa using h
  · simpa using h

theorem tdr_work_counter_of_invoked (s : TdrState)
    (h : (amdxdna_tdr_work s).2 = true) :
    (amdxdna_tdr_work s).1.tdr_counter = s.tdr_counter + 1 := by
  simp only [amdxdna_tdr_work] at h ⊢
  split_ifs at h ⊢
  rfl

theorem tdr_work_counter_of_not_invoked (s : TdrState)
    (h : (amdxdna_tdr_work s).2 = false) :
    (amdxdna_tdr_work s).1.tdr_counter = s.tdr_counter := by
  simp only [amdxdna_tdr_work] at h ⊢
  split_ifs at h ⊢
  rfl

theorem tdr_work_clients (s : TdrState) :
    (amdxdna_tdr_work s).1.clients = (scanClients s.clients).ctxs := by
  simp only [amdxdna_tdr_work]
  split_ifs with h
  · rfl
  · rfl

theorem tdr_work_invoked_iff (s : TdrState) :
    (amdxdna_tdr_work s).2 = true ↔
      (∃ c ∈ s.clients.flatten, c.submitted ≠ c.completed) ∧
        ∀ c ∈ s.clients.flatten, c.submitted ≠ c.completed →
          c.tdr_last_completed = c.completed := by
  rw [tdr_work_invoked_cond]
  cases ha : (scanClients s.clients).active with
  | true =>
    obtain ⟨c, hc, hb, hl⟩ := (scanClients_active_iff s.clients).mp ha
    constructor
    · intro hx
      exact absurd hx.2 (by simp)
    · intro hx
      exact absurd (hx.2 c hc hb) hl
  | false =>
    obtain ⟨_, e2, e3⟩ := scanClients_not_active s.clients ha
    have hnoprog : ∀ c ∈ s.clients.flatten, c.submitted ≠ c.completed →
        c.tdr_last_completed = c.completed := by
      intro c hc hbusy
      by_contra hne
      have hact : (scanClients s.clients).active = true :=
        (scanClients_active_iff s.clients).mpr ⟨c, hc, hbusy, hne⟩
      rw [ha] at hact
      exact Bool.false_ne_true hact
    rw [e2, e3]
    constructor
    · intro hx
      refine ⟨?_, hnoprog⟩
      by_contra hnone
      push_neg at hnone
      have hall : List.countP isIdleB s.clients.flatten =
          s.clients.flatten.length :=
        List.countP_eq_length.mpr fun c hc => by simpa [isIdleB] using hnone c hc
      exact hx.1 hall.symm
    · rintro ⟨⟨c, hc, hbusy⟩, -⟩
      refine ⟨?_, rfl⟩
      intro heq
      have hidle := List.countP_eq_length.mp heq.symm c hc
      simp [isIdleB] at hidle
      exact hbusy hidle

theorem tdr_work_idle (L : List (List Hwctx)) (cnt : Nat)
    (h : ∀ c ∈ L.flatten, c.submitted = c.completed) :
    amdxdna_tdr_work ⟨L, cnt⟩ = (⟨L, cnt⟩, false) := by
  have hact : (scanClients L).active = false := by
    apply bool_eq_false
    intro hx
    obtain ⟨c, hc, hb, _⟩ := (scanClients_active_iff L).mp hx
    exact hb (h c hc)
  obtain ⟨e1, e2, e3⟩ := scanClients_not_active L hact
  have hcc : (scanClients L).ctx_cnt = (scanClients L).stop_cnt := by
    rw [e2, e3]
    exact (List.countP_eq_length.mpr fun c hc => by
      simpa [isIdleB] using h c hc).symm
  simp only [amdxdna_tdr_work]
  rw [if_neg fun hx => hx.1 hcc]
  rw [e1]

/-- Repeated scan cycles: before each cycle the environment may have replaced
the registry contents (submission, completion and context lifecycle run
concurrently between scans), then one `amdxdna_tdr_work` run executes on the
current recovery counter. Returns the final recovery counter and whether any
cycle invoked recovery. -/
def runSeq : List (List (List Hwctx)) → Nat → Nat × Bool
  | [], cnt => (cnt, false)
  | L :: rest, cnt =>
    let r := amdxdna_tdr_work ⟨L, cnt⟩
    let p := runSeq rest r.1.tdr_counter
    (p.1, r.2 || p.2)

/-- C1: in one scan cycle of `amdxdna_tdr_work`, the external recovery
operation is invoked if and only if some context has outstanding work and no
context with outstanding work had a completed counter differing from its
`tdr_last_completed` snapshot; whenever recovery is not invoked, the recovery
counter `tdr_counter` is unchanged. -/
theorem tdr_work_recovery_iff (s : TdrState) :
    ((amdxdna_tdr_work s).2 = true ↔
      (∃ c ∈ s.clients.flatten, c.submitted ≠ c.completed) ∧
        ∀ c ∈ s.clients.flatten, c.submitted ≠ c.completed →
          c.tdr_last_completed = c.completed) ∧
    ((amdxdna_tdr_work s).2 = false →
      (amdxdna_tdr_work s).1.tdr_counter = s.tdr_counter) :=
  ⟨tdr_work_invoked_iff s, fun h => tdr_work_counter_of_not_invoked s h⟩

theorem tdr_work_recovery_iff_witness :
    (amdxdna_tdr_work ⟨[[⟨10, 7, 7⟩]], 5⟩).2 = true :=
  (tdr_work_recovery_iff ⟨[[⟨10, 7, 7⟩]], 5⟩).1.mpr (by decide)

/-- C3: on a registry with a stuck context (outstanding work, completed equal
to its snapshot) and no progressing context, a scan invokes recovery and bumps
the counter by one; the scan leaves the registry untouched, so the immediately
following scan under unchanged counters invokes recovery again, for a total
counter increase of exactly one per cycle. -/
theorem stuck_scan_recovers_each_cycle (s : TdrState)
    (h1 : ∃ c ∈ s.clients.flatten, c.completed < c.submitted)
    (h2 : ∀ c ∈ s.clients.flatten, c.submitted ≠ c.completed →
      c.tdr_last_completed = c.completed) :
    (amdxdna_tdr_work s).2 = true ∧
    (amdxdna_tdr_work s).1.tdr_counter = s.tdr_counter + 1 ∧
    (amdxdna_tdr_work s).1.clients = s.clients ∧
    (amdxdna_tdr_work (amdxdna_tdr_work s).1).2 = true ∧
    (amdxdna_tdr_work (amdxdna_tdr_work s).1).1.tdr_counter = s.tdr_counter + 2 := by
  obtain ⟨c, hc, hlt⟩ := h1
  have hbusy : ∃ x ∈ s.clients.flatten, x.submitted ≠ x.completed :=
    ⟨c, hc, fun he => absurd he.symm (Nat.ne_of_lt hlt)⟩
  have hinv : (amdxdna_tdr_work s).2 = true :=
    (tdr_work_invoked_iff s).mpr ⟨hbusy, h2⟩
  have hcnt := tdr_work_counter_of_invoked s hinv
  have hact : (scanClients s.clients).active = false := by
    apply bool_eq_false
    intro hx
    obtain ⟨x, hx2, hb, hl⟩ := (scanClients_active_iff s.clients).mp hx
    exact hl (h2 x hx2 hb)
  have hcl : (amdxdna_tdr_work s).1.clients = s.clients := by
    rw [tdr_work_clients, (scanClients_not_active s.clients hact).1]
  have hinv2 : (amdxdna_tdr_work (amdxdna_tdr_work s).1).2 = true := by
    apply (tdr_work_invoked_iff (amdxdna_tdr_work s).1).mpr
    rw [hcl]
    exact ⟨hbusy, h2⟩
  have hcnt2 := tdr_work_counter_of_invoked (amdxdna_tdr_work s).1 hinv2
  exact ⟨hinv, hcnt, hcl, hinv2, by rw [hcnt2, hcnt]⟩

theorem stuck_scan_recovers_each_cycle_witness :
    (amdxdna_tdr_work ⟨[[⟨10, 7, 7⟩]], 0⟩).2 = true ∧
    (amdxdna_tdr_work ⟨[[⟨10, 7, 7⟩]], 0⟩).1.tdr_counter = 0 + 1 ∧
    (amdxdna_tdr_work ⟨[[⟨10, 7, 7⟩]], 0⟩).1.clients = [[⟨10, 7, 7⟩]] ∧
    (amdxdna_tdr_work (amdxdna_tdr_work ⟨[[⟨10, 7, 7⟩]], 0⟩).1).2 = true ∧
    (amdxdna_tdr_work
      (amdxdna_tdr_work ⟨[[⟨10, 7, 7⟩]], 0⟩).1).1.tdr_counter = 0 + 2 :=
  stuck_scan_recovers_each_cycle ⟨[[⟨10, 7, 7⟩]], 0⟩ (by decide) (by decide)

/-- C4: when the flattened registry order visits a progressing context A before
a frozen busy context B, the scan invokes no recovery, leaves the recovery
counter unchanged, and the portion of the registry from B on is returned
untouched (only a context in the prefix up to A may be mutated, and the prefix
keeps its length, so B itself is unchanged by that scan). -/
theorem early_exit_no_recovery_frame (L : List (List Hwctx)) (cnt : Nat)
    (pre mid post : List Hwctx) (A B : Hwctx)
    (hsplit : L.flatten = pre ++ A :: mid ++ B :: post)
    (hA : isProg A)
    (hBbusy : B.submitted ≠ B.completed)
    (hBfroz : B.tdr_last_completed = B.completed) :
    (amdxdna_tdr_work ⟨L, cnt⟩).2 = false ∧
    (amdxdna_tdr_work ⟨L, cnt⟩).1.tdr_counter = cnt ∧
    (amdxdna_tdr_work ⟨L, cnt⟩).1.clients.flatten =
      updFirst (pre ++ A :: mid) ++ B :: post ∧
    (updFirst (pre ++ A :: mid)).length = (pre ++ A :: mid).length := by
  have hAmem : A ∈ L.flatten := by
    rw [hsplit]
    simp
  have hinv : (amdxdna_tdr_work ⟨L, cnt⟩).2 = false := by
    apply bool_eq_false
    intro hx
    obtain ⟨-, hall⟩ := (tdr_work_invoked_iff ⟨L, cnt⟩).mp hx
    exact hA.2 (hall A hAmem hA.1)
  have hcnt := tdr_work_counter_of_not_invoked ⟨L, cnt⟩ hinv
  have hfr : (amdxdna_tdr_work ⟨L, cnt⟩).1.clients.flatten =
      updFirst (pre ++ A :: mid) ++ B :: post := by
    rw [tdr_work_clients, scanClients_flatten, hsplit]
    have hassoc : pre ++ A :: mid ++ B :: post =
        (pre ++ A :: mid) ++ B :: post := by
      simp
    rw [hassoc]
    exact updFirst_append_left (pre ++ A :: mid) (B :: post)
      ⟨A, by simp, hA⟩
  exact ⟨hinv, hcnt, hfr, updFirst_length (pre ++ A :: mid)⟩

theorem early_exit_no_recovery_frame_witness :
    (amdxdna_tdr_work ⟨[[⟨10, 7, 6⟩, ⟨10, 7, 7⟩]], 4⟩).2 = false ∧
    (amdxdna_tdr_work ⟨[[⟨10, 7, 6⟩, ⟨10, 7, 7⟩]], 4⟩).1.tdr_counter = 4 ∧
    (amdxdna_tdr_work ⟨[[⟨10, 7, 6⟩, ⟨10, 7, 7⟩]], 4⟩).1.clients.flatten =
      updFirst ([] ++ ⟨10, 7, 6⟩ :: []) ++ ⟨10, 7, 7⟩ :: [] ∧
    (updFirst ([] ++ ⟨10, 7, 6⟩ :: [])).length =
      ([] ++ (⟨10, 7, 6⟩ : Hwctx) :: []).length :=
  early_exit_no_recovery_frame [[⟨10, 7, 6⟩, ⟨10, 7, 7⟩]] 4 [] [] []
    ⟨10, 7, 6⟩ ⟨10, 7, 7⟩ (by decide) (by decide) (by decide) (by decide)

/-- C5: over any sequence of scan cycles in which every context of every
registry snapshot has submitted equal to completed, recovery is never invoked
and the recovery counter never moves from its initial value. -/
theorem idle_never_recovers (ls : List (List (List Hwctx))) (cnt : Nat)
    (h : ∀ L ∈ ls, ∀ cl ∈ L, ∀ c ∈ cl, c.submitted = c.completed) :
    runSeq ls cnt = (cnt, false) := by
  revert h
  induction ls generalizing cnt with
  | nil =>
    intro h
    rfl
  | cons L rest ih =>
    intro h
    have hL : ∀ c ∈ L.flatten, c.submitted = c.completed := by
      intro c hc
      obtain ⟨cl, hcl, hc2⟩ := List.mem_flatten.mp hc
      exact h L (by simp) cl hcl c hc2
    simp only [runSeq]
    rw [tdr_work_idle L cnt hL, ih cnt fun L2 hL2 => h L2 (by simp [hL2])]
    rfl

theorem idle_never_recovers_witness :
    runSeq [[[⟨5, 5, 5⟩, ⟨9, 9, 7⟩]], [], [[⟨12, 12, 9⟩], []]] 0 = (0, false) :=
  idle_never_recovers [[[⟨5, 5, 5⟩, ⟨9, 9, 7⟩]], [], [[⟨12, 12, 9⟩], []]] 0
    (by decide)

/-- C7: on the concrete registry of three contexts with counters (5,5), (10,7)
and (10,7), the latter two with snapshot 7, one scan counts three contexts of
which one is idle, finds no progress, invokes recovery once, and raises the
recovery counter from 0 to 1. -/
theorem tdr_concrete_scenario :
    scanClients [[⟨5, 5, 5⟩, ⟨10, 7, 7⟩, ⟨10, 7, 7⟩]] =
      ⟨[[⟨5, 5, 5⟩, ⟨10, 7, 7⟩, ⟨10, 7, 7⟩]], 3, 1, false⟩ ∧
    amdxdna_tdr_work ⟨[[⟨5, 5, 5⟩, ⟨10, 7, 7⟩, ⟨10, 7, 7⟩]], 0⟩ =
      (⟨[[⟨5, 5, 5⟩, ⟨10, 7, 7⟩, ⟨10, 7, 7⟩]], 1⟩, true) := by
  decide

/-- C8: one scan over any registry touches the `tdr_last_completed` snapshot of
at most one context, namely the first progressing one in visiting order, and
leaves every other context entry and the client structure unchanged; this is
exactly the effect of `updFirst` on the flattened registry. -/
theorem tdr_work_frame (L : List (List Hwctx)) (cnt : Nat) :
    (amdxdna_tdr_work ⟨L, cnt⟩).1.clients.flatten = updFirst L.flatten ∧
    (amdxdna_tdr_work ⟨L, cnt⟩).1.clients.map List.length = L.map List.length := by
  constructor
  · rw [tdr_work_clients, scanClients_flatten]
  · rw [tdr_work_clients]
    exact scanClients_map_length L

/-!
Lifecycle model for `amdxdna_tdr_start`, `amdxdna_tdr_stop`, the timer callback
`amdxdna_tdr_timer` and the dispatched work item, as an interleaving state
machine. One state records the device configuration visible to the watchdog
(whether `dev_info->ops->recover` is non-null, and the `timeout_in_sec` module
parameter), the lifecycle flags (`started`, whether the recurring timer is
armed, whether a work item is sitting on `system_long_wq`), and observables
(how many evaluator runs have executed, the recovery counter, and whether a
run ever reached the unguarded `ops->recover(xdna)` call with a null `recover`
pointer).

Events: a call to `amdxdna_tdr_start`, a call to `amdxdna_tdr_stop` (which maps
to `timer_delete_sync`: it atomically disarms the timer and waits for the timer
callback, but does nothing to an already queued work item), a firing of the
timer callback (which queues the work item and re-arms the timer via
`mod_timer`), and an execution of the queued work item against the registry
contents current at that moment.
-/

/-- Lifecycle state of the watchdog. -/
structure WdState where
  recoverPresent : Bool
  timeout_in_sec : Nat
  started : Bool
  timerArmed : Bool
  workQueued : Bool
  runsExecuted : Nat
  tdr_counter : Nat
  nullDeref : Bool
deriving DecidableEq

/-- Events the lifecycle machine can take. A work-item execution carries the
registry contents it scans. -/
inductive Ev where
  | start : Ev
  | stop : Ev
  | timerFire : Ev
  | workRun : List (List Hwctx) → Ev
deriving DecidableEq

/-- Embedding of `amdxdna_tdr_start`: refuse when the device has no recover
operation or the configured interval is zero; otherwise arm the timer and set
`started`. -/
def tdr_start (s : WdState) : WdState :=
  if s.recoverPresent = false then s
  else if s.timeout_in_sec = 0 then s
  else { s with timerArmed := true, started := true }

/-- Embedding of `amdxdna_tdr_stop`: a no-op unless `started`; otherwise
`timer_delete_sync` disarms the recurring timer. The `started` flag is not
cleared and the queued work item is not cancelled, exactly as in the source. -/
def tdr_stop (s : WdState) : WdState :=
  if s.started = false then s
  else { s with timerArmed := false }

/-- Embedding of `amdxdna_tdr_timer`: when the timer is armed its callback
queues the work item and re-arms itself via `mod_timer`. -/
def tdr_timer (s : WdState) : WdState :=
  if s.timerArmed = true then { s with workQueued := true }
  else s

/-- Execution of a queued `tdr_work` item over the registry contents `L`: the
scan runs, and when the stuck verdict is reached the counter is bumped and
`ops->recover` is called with no null check, so a missing recover operation at
that point would be a null dereference. -/
def tdr_work_run (L : List (List Hwctx)) (s : WdState) : WdState :=
  if s.workQueued = false then s
  else
    let r := amdxdna_tdr_work ⟨L, s.tdr_counter⟩
    if r.2 then
      { s with
        workQueued := false
        runsExecuted := s.runsExecuted + 1
        tdr_counter := r.1.tdr_counter
        nullDeref := s.nullDeref || !s.recoverPresent }
    else
      { s with workQueued := false, runsExecuted := s.runsExecuted + 1 }

/-- One step of the lifecycle machine. -/
def stepE (s : WdState) : Ev → WdState
  | Ev.start => tdr_start s
  | Ev.stop => tdr_stop s
  | Ev.timerFire => tdr_timer s
  | Ev.workRun L => tdr_work_run L s

/-- Run the lifecycle machine over a list of events. -/
def runEvs (s : WdState) : List Ev → WdState
  | [] => s
  | e :: es => runEvs (stepE s e) es

/-- Fresh watchdog state at device attach, before any lifecycle call. -/
def initWd (recoverPresent : Bool) (timeout : Nat) : WdState :=
  ⟨recoverPresent, timeout, false, false, false, 0, 0, false⟩

/-- A watchdog that can never run: the configuration refuses arming (no
recover operation or zero interval) and nothing is armed or queued. -/
def quiescent (s : WdState) : Prop :=
  (s.recoverPresent = false ∨ s.timeout_in_sec = 0) ∧
    s.timerArmed = false ∧ s.workQueued = false

theorem stepE_quiescent_fix (s : WdState) (e : Ev) (h : quiescent s) :
    stepE s e = s := by
  obtain ⟨hd, ha, hw⟩ := h
  cases e with
  | start =>
    show tdr_start s = s
    unfold tdr_start
    rcases hd with hd | hd
    · rw [if_pos hd]
    · split_ifs with h1
      · rfl
      · rfl
  | stop =>
    show tdr_stop s = s
    unfold tdr_stop
    split_ifs with h1
    · rfl
    · cases s
      simp_all
  | timerFire =>
    show tdr_timer s = s
    unfold tdr_timer
    rw [ha]
    simp
  | workRun L =>
    show tdr_work_run L s = s
    unfold tdr_work_run
    rw [if_pos hw]

theorem runEvs_quiescent_fix (s : WdState) (es : List Ev) (h : quiescent s) :
    runEvs s es = s := by
  induction es with
  | nil => rfl
  | cons e es ih =>
    show runEvs (stepE s e) es = s
    rw [stepE_quiescent_fix s e h]
    exact ih

/-- Number of evaluator runs already executed plus the one run that a queued
work item can still contribute. -/
def runPotential (s : WdState) : Nat :=
  s.runsExecuted + (if s.workQueued = true then 1 else 0)

theorem stepE_no_start_potential (s : WdState) (e : Ev)
    (he : e ≠ Ev.start) (ha : s.timerArmed = false) :
    (stepE s e).timerArmed = false ∧ runPotential (stepE s e) ≤ runPotential s := by
  cases e with
  | start => exact absurd rfl he
  | stop =>
    show (tdr_stop s).timerArmed = false ∧ runPotential (tdr_stop s) ≤ runPotential s
    unfold tdr_stop
    split_ifs with h1
    · exact ⟨ha, le_refl _⟩
    · exact ⟨rfl, le_refl _⟩
  | timerFire =>
    show (tdr_timer s).timerArmed = false ∧ runPotential (tdr_timer s) ≤ runPotential s
    unfold tdr_timer
    rw [ha, if_neg Bool.false_ne_true]
    exact ⟨ha, le_refl _⟩
  | workRun L =>
    show (tdr_work_run L s).timerArmed = false ∧
      runPotential (tdr_work_run L s) ≤ runPotential s
    simp only [tdr_work_run]
    split_ifs with h1 h2
    · exact ⟨ha, le_refl _⟩
    · have hq : s.workQueued = true := by
        cases hb : s.workQueued
        · exact absurd hb h1
        · rfl
      exact ⟨ha, by simp [runPotential, hq]⟩
    · have hq : s.workQueued = true := by
        cases hb : s.workQueued
        · exact absurd hb h1
        · rfl
      exact ⟨ha, by simp [runPotential, hq]⟩

theorem runEvs_no_start_disarmed (es : List Ev) :
    ∀ s : WdState, Ev.start ∉ es → s.timerArmed = false →
      (runEvs s es).timerArmed = false ∧
        runPotential (runEvs s es) ≤ runPotential s := by
  induction es with
  | nil =>
    intro s _ ha
    exact ⟨ha, le_refl _⟩
  | cons e es ih =>
    intro s hes ha
    have he : e ≠ Ev.start := by
      intro hx
      exact hes (by rw [hx]; exact List.mem_cons_self _ _)
    obtain ⟨h1, h2⟩ := stepE_no_start_potential s e he ha
    obtain ⟨g1, g2⟩ := ih (stepE s e) (fun hx => hes (List.mem_cons_of_mem e hx)) h1
    exact ⟨g1, le_trans g2 h2⟩

/-- C2 counterexample: after `start` arms the watchdog and the timer callback
queues one evaluator run, `stop` returns with the work item still queued (the
source only calls `timer_delete_sync`, never cancelling the queued work), and
the queued evaluator run then executes after `stop` has returned. -/
theorem stop_then_work_runs_counterexample :
    (runEvs (initWd true 2) [Ev.start, Ev.timerFire, Ev.stop]).timerArmed = false ∧
    (runEvs (initWd true 2) [Ev.start, Ev.timerFire, Ev.stop]).workQueued = true ∧
    (runEvs (initWd true 2) [Ev.start, Ev.timerFire, Ev.stop]).runsExecuted = 0 ∧
    (runEvs (initWd true 2)
      [Ev.start, Ev.timerFire, Ev.stop, Ev.workRun []]).runsExecuted = 1 := by
  decide

/-- C2 amended: `stop()` on a started watchdog cancels the recurring timer, and
once it returns (with no further `start()`) the timer never re-arms, so at most
one further evaluator run — one already queued before the cancellation — can
still execute; `stop()` does not wait for that queued run. -/
theorem tdr_stop_disarms_timer (s : WdState) (es : List Ev)
    (hst : s.started = true) (hes : Ev.start ∉ es) :
    (runEvs (tdr_stop s) es).timerArmed = false ∧
    (runEvs (tdr_stop s) es).runsExecuted ≤
      s.runsExecuted + (if s.workQueued = true then 1 else 0) := by
  have ha : (tdr_stop s).timerArmed = false := by
    unfold tdr_stop
    rw [hst]
    simp
  obtain ⟨g1, g2⟩ := runEvs_no_start_disarmed es (tdr_stop s) hes ha
  refine ⟨g1, le_trans (Nat.le_add_right _ _) (le_trans g2 (le_of_eq ?_))⟩
  unfold tdr_stop
  rw [hst]
  simp [runPotential]

theorem tdr_stop_disarms_timer_witness :
    (runEvs (tdr_stop ⟨true, 2, true, true, true, 0, 0, false⟩)
      [Ev.timerFire, Ev.workRun [], Ev.stop]).timerArmed = false ∧
    (runEvs (tdr_stop ⟨true, 2, true, true, true, 0, 0, false⟩)
      [Ev.timerFire, Ev.workRun [], Ev.stop]).runsExecuted ≤
      (⟨true, 2, true, true, true, 0, 0, false⟩ : WdState).runsExecuted +
        (if (⟨true, 2, true, true, true, 0, 0, false⟩ : WdState).workQueued = true
          then 1 else 0) :=
  tdr_stop_disarms_timer ⟨true, 2, true, true, true, 0, 0, false⟩
    [Ev.timerFire, Ev.workRun [], Ev.stop] rfl (by decide)

/-- C6: when the recover operation is absent or the interval is zero,
`amdxdna_tdr_start` leaves the state untouched (no timer armed, `started`
stays false), and no evaluator run ever executes along any later event
sequence, including further `start` calls under the same configuration. -/
theorem tdr_start_disabled_no_runs (s : WdState) (es : List Ev)
    (hd : s.recoverPresent = false ∨ s.timeout_in_sec = 0)
    (hst : s.started = false) (ha : s.timerArmed = false)
    (hw : s.workQueued = false) :
    tdr_start s = s ∧
    runEvs s es = s ∧
    (runEvs s es).started = false ∧
    (runEvs s es).runsExecuted = s.runsExecuted := by
  have hq : quiescent s := ⟨hd, ha, hw⟩
  have hfix := runEvs_quiescent_fix s es hq
  exact ⟨stepE_quiescent_fix s Ev.start hq, hfix, by rw [hfix, hst], by rw [hfix]⟩

theorem tdr_start_disabled_no_runs_witness :
    tdr_start (initWd false 2) = initWd false 2 ∧
    runEvs (initWd false 2)
      [Ev.start, Ev.timerFire, Ev.workRun [[⟨10, 7, 7⟩]], Ev.stop] =
      initWd false 2 ∧
    (runEvs (initWd false 2)
      [Ev.start, Ev.timerFire, Ev.workRun [[⟨10, 7, 7⟩]], Ev.stop]).started =
      false ∧
    (runEvs (initWd false 2)
      [Ev.start, Ev.timerFire, Ev.workRun [[⟨10, 7, 7⟩]], Ev.stop]).runsExecuted =
      (initWd false 2).runsExecuted :=
  tdr_start_disabled_no_runs (initWd false 2)
    [Ev.start, Ev.timerFire, Ev.workRun [[⟨10, 7, 7⟩]], Ev.stop]
    (Or.inl rfl) rfl rfl rfl

/-- C9: `amdxdna_tdr_stop` is idempotent: a second consecutive `stop` changes
nothing beyond the first, and a `stop` on a never-started watchdog is the
identity. -/
theorem tdr_stop_idempotent (s : WdState) :
    tdr_stop (tdr_stop s) = tdr_stop s ∧
      (s.started = false → tdr_stop s = s) := by
  constructor
  · by_cases h : s.started = false
    · simp [tdr_stop, h]
    · simp [tdr_stop, h]
  · intro h
    simp [tdr_stop, h]

theorem tdr_stop_idempotent_witness :
    tdr_stop (tdr_stop ⟨true, 2, true, true, true, 3, 4, false⟩) =
      tdr_stop ⟨true, 2, true, true, true, 3, 4, false⟩ ∧
    ((⟨true, 2, true, true, true, 3, 4, false⟩ : WdState).started = false →
      tdr_stop ⟨true, 2, true, true, true, 3, 4, false⟩ =
        ⟨true, 2, true, true, true, 3, 4, false⟩) :=
  tdr_stop_idempotent ⟨true, 2, true, true, true, 3, 4, false⟩

/-- C10: with a device that lacks the recover operation, `start` refuses to arm
the timer, so from a fresh watchdog no event sequence ever queues or executes
an evaluator run, and in particular the unguarded `ops->recover` call inside
`amdxdna_tdr_work` is never reached with a null recover pointer. -/
theorem recover_absent_unreachable (s : WdState) (es : List Ev)
    (hr : s.recoverPresent = false) (ha : s.timerArmed = false)
    (hw : s.workQueued = false) (hn : s.nullDeref = false) :
    (runEvs s es).nullDeref = false ∧
      (runEvs s es).runsExecuted = s.runsExecuted := by
  have hfix := runEvs_quiescent_fix s es ⟨Or.inl hr, ha, hw⟩
  rw [hfix]
  exact ⟨hn, rfl⟩

theorem recover_absent_unreachable_witness :
    (runEvs (initWd false 5)
      [Ev.start, Ev.timerFire, Ev.workRun [[⟨10, 7, 7⟩]], Ev.stop,
        Ev.start]).nullDeref = false ∧
    (runEvs (initWd false 5)
      [Ev.start, Ev.timerFire, Ev.workRun [[⟨10, 7, 7⟩]], Ev.stop,
        Ev.start]).runsExecuted = (initWd false 5).runsExecuted :=
  recover_absent_unreachable (initWd false 5)
    [Ev.start, Ev.timerFire, Ev.workRun [[⟨10, 7, 7⟩]], Ev.stop, Ev.start]
    rfl rfl rfl rfl
